import Mathlib

/-!
Verification of the duplicate-detection / safe-deletion workflow and the
dynamic-scene sandbox of the pica-pic3 gallery application.

The definitions below are a shallow embedding of the relevant source
functions:

* `src/services/githubService.ts` (`getRepoFiles`, `isImageFile`);
* `src/components/RepoCleanupModal.tsx` (`handleScan` grouping,
  `executeDelete` batch deletion);
* the scene sandbox (`BabylonScene.tsx`), whose source file is absent from
  the repository snapshot and is therefore modelled from the specification.

JavaScript strings are modelled as Lean `String`s; string operations that
the code performs characterwise (`split`, `toLowerCase`, `includes`,
`localeCompare`) are embedded as structurally recursive functions over
`List Char` so that every definition evaluates inside the kernel.
`localeCompare` is modelled as code-point lexicographic comparison, which
agrees with it on the ASCII file names the application handles.
-/

/-- A file record of the GitHub contents listing, as used by the code:
`{ name, type, sha, path }`.  The `download_url` field of the wire format is
never read by the cleanup workflow and is omitted.  The `sha` field is an
`Option` so that a malformed record whose hash is absent (JavaScript
`undefined`) is representable; a present hash `h` is `some h`. -/
structure GitHubFile where
  name : String
  type : String
  sha : Option String
  path : String
deriving Repr, DecidableEq

/-- A duplicate group as built by `handleScan`:
`{ sha, files }` where `files` keeps the sorted members. -/
structure DuplicateGroup where
  sha : Option String
  files : List GitHubFile
deriving Repr, DecidableEq

/-- JavaScript `filename.split('.')` for the one-character separator `.`:
splits into (possibly empty) dot-free segments; the auxiliary accumulator
holds the current segment reversed. -/
def splitOnDotAux : List Char → List Char → List (List Char)
  | [], acc => [acc.reverse]
  | c :: cs, acc =>
      if c = '.' then acc.reverse :: splitOnDotAux cs []
      else splitOnDotAux cs (c :: acc)

/-- JavaScript `s.split('.')`. -/
def splitOnDot (s : List Char) : List (List Char) :=
  splitOnDotAux s []

/-- The image extension whitelist of `isImageFile`, lowercased. -/
def imageExts : List (List Char) :=
  [String.toList "jpg", String.toList "jpeg", String.toList "png",
   String.toList "gif", String.toList "webp", String.toList "bmp",
   String.toList "svg"]

/-- `isImageFile` from `githubService.ts`:
`const ext = filename.split('.').pop()?.toLowerCase();`
`return ['jpg','jpeg','png','gif','webp','bmp','svg'].includes(ext || '');`
`split` always yields a non-empty array, so `pop` is the last segment;
`getLastD []` matches the `ext || ''` fallback. -/
def isImageFile (filename : String) : Bool :=
  imageExts.contains (((splitOnDot filename.toList).getLastD []).map Char.toLower)

/-- `getRepoFiles` from `githubService.ts`, with the network fetch replaced
by its observable result: `ok` is `response.ok` and `data` is the parsed
JSON body, `none` standing for a non-array body.  The code throws when the
response is not ok, returns `[]` for a non-array body, and otherwise keeps
exactly the entries with `type === 'file'` passing `isImageFile`. -/
def getRepoFiles (ok : Bool) (data : Option (List GitHubFile)) :
    Except String (List GitHubFile) :=
  if !ok then Except.error "Failed to fetch repo contents"
  else
    match data with
    | none => Except.ok []
    | some l => Except.ok (l.filter fun f => f.type == "file" && isImageFile f.name)

/-- The strict reading of the claim phrase "filename extension (lowercased
text after the last dot)": defined only when the name contains a dot. -/
def lastDotExt (s : List Char) : Option (List Char) :=
  if '.' ∈ s then some ((s.reverse.takeWhile fun c => c ≠ '.').reverse.map Char.toLower)
  else none

/-- The comparator of `handleScan`'s group sort, as the precedence relation
it induces: `(a, b) => a.name.length - b.name.length` when the lengths
differ, `a.name.localeCompare(b.name)` otherwise.  `a` precedes (or ties
with) `b` exactly when this relation holds. -/
def fileLe (a b : GitHubFile) : Prop :=
  a.name.length < b.name.length ∨
    (a.name.length = b.name.length ∧
      (List.Lex (· < ·) a.name.toList b.name.toList ∨ a.name.toList = b.name.toList))

instance : DecidableRel fileLe := fun a b => by
  unfold fileLe
  infer_instance

/-- `Array.prototype.sort` is a stable sort (ES2019); with the consistent
comparator above its output equals that of any stable sort, embedded here as
insertion sort. -/
def sortFiles (l : List GitHubFile) : List GitHubFile :=
  List.insertionSort fileLe l

/-- One step of `shaMap.set(file.sha, list.push(file))`: append the record
to the entry of its hash, keeping the key position (JavaScript `Map.set` on
an existing key), or append a fresh entry at the end (insertion order of
`Map` keys). -/
def upsertSha (m : List (Option String × List GitHubFile)) (f : GitHubFile) :
    List (Option String × List GitHubFile) :=
  match m with
  | [] => [(f.sha, [f])]
  | (k, l) :: rest =>
      if k = f.sha then (k, l ++ [f]) :: rest
      else (k, l) :: upsertSha rest f

/-- The `shaMap` of `handleScan`: `files.forEach(file => ...)` building a
`Map<string, File[]>` keyed by `file.sha`, modelled as an association list
in key insertion order. -/
def buildShaMap (files : List GitHubFile) : List (Option String × List GitHubFile) :=
  files.foldl upsertSha []

/-- The `dupes` array of `handleScan`: iterate `shaMap` in insertion order,
keep entries with more than one file, sort each kept entry. -/
def scanDupes (files : List GitHubFile) : List DuplicateGroup :=
  (buildShaMap files).foldl
    (fun dupes entry =>
      if 1 < entry.2.length then dupes ++ [⟨entry.1, sortFiles entry.2⟩] else dupes)
    []

/-- `toDelete.add(path)`: JavaScript `Set` insertion (no duplicates, keeps
insertion order). -/
def addPath (td : List String) (p : String) : List String :=
  if p ∈ td then td else td ++ [p]

/-- The `toDelete` set of `handleScan`: for every surviving group, the paths
of `sorted[1..]` are added. -/
def scanToDelete (files : List GitHubFile) : List String :=
  (scanDupes files).foldl
    (fun td g => (g.files.drop 1).foldl (fun td2 f => addPath td2 f.path) td)
    []

/-- The hashes of the records in first-encounter order; these are exactly
the keys of `buildShaMap`. -/
def encounterShas (files : List GitHubFile) : List (Option String) :=
  files.foldl (fun acc f => if f.sha ∈ acc then acc else acc ++ [f.sha]) []

/-- The grouping algorithm as the specification words it: map each content
hash (in encounter order) to the records carrying it (in encounter order),
keep the hashes with more than one record, sort each surviving group by the
name order, and present the result as duplicate groups. -/
def specGrouping (files : List GitHubFile) : List DuplicateGroup :=
  ((encounterShas files).filter
      fun k => decide (1 < (files.filter fun f => decide (f.sha = k)).length)).map
    fun k => ⟨k, sortFiles (files.filter fun f => decide (f.sha = k))⟩

/-- JavaScript `haystack.includes(pattern)` on characters. -/
def hasInfixChars (hay pat : List Char) : Bool :=
  match hay with
  | [] => pat.isEmpty
  | c :: rest => pat.isPrefixOf (c :: rest) || hasInfixChars rest pat

/-- The `error.message.includes('Not Found')` test of `executeDelete`. -/
def containsNotFound (msg : String) : Bool :=
  hasInfixChars msg.toList (String.toList "Not Found")

/-- The scope hint surfaced for a not-found-shaped deletion failure (the
source text additionally quotes the two scope names). -/
def notFoundHint : String :=
  "404 Not Found (Check if Token has repo or public_repo write scope)"

/-- The error classification of the `catch` branch of `executeDelete`:
a message containing `Not Found` becomes the scope hint; otherwise
`lastError = error.message || "Unknown error"`, so an empty (falsy) message
becomes `Unknown error` and any other message is kept verbatim. -/
def classifyError (msg : String) : String :=
  if containsNotFound msg then notFoundHint
  else if msg = "" then "Unknown error" else msg

/-- The mutable tally of `executeDelete` (`deletedCount`, `errorCount`,
`lastError`), extended with two observation traces of the effects the loop
performs: `requests` records every `(path, sha)` handed to
`deleteFileFromGitHub`, and `skipped` records every path abandoned with the
`Could not find SHA` warning. -/
structure BatchState where
  deletedCount : Nat
  errorCount : Nat
  lastError : String
  requests : List (String × String)
  skipped : List String
deriving Repr, DecidableEq

def initialBatchState : BatchState := ⟨0, 0, "", [], []⟩

/-- The sha lookup of `executeDelete`: scan the in-memory `duplicates`
groups for the first file with the selected path; the result is that file's
`sha` field, `none` when no group contains the path (the JavaScript variable
then keeps its falsy initial value). -/
def resolveSha (groups : List DuplicateGroup) (path : String) : Option String :=
  match groups with
  | [] => none
  | g :: rest =>
      match g.files.find? (fun f => f.path == path) with
      | some f => f.sha
      | none => resolveSha rest path

/-- The `if (sha)` truthiness test guarding the delete request: the resolved
sha must exist and be a non-empty string. -/
def usableSha (groups : List DuplicateGroup) (path : String) : Bool :=
  match resolveSha groups path with
  | some s => decide (s ≠ "")
  | none => false

/-- The sha string handed to the deletion request for a usable path. -/
def shaOf (groups : List DuplicateGroup) (path : String) : String :=
  (resolveSha groups path).getD ""

/-- One iteration of the `for (const path of pathsToDelete)` loop.  The
outcome of the remote call `deleteFileFromGitHub` is supplied by `oracle`:
`none` is success, `some msg` is a thrown error carrying `msg`.  A usable
sha issues the request and updates the tally; otherwise the path is skipped
with a warning and no counter changes. -/
def deleteStep (groups : List DuplicateGroup) (oracle : String → Option String)
    (st : BatchState) (path : String) : BatchState :=
  match resolveSha groups path with
  | some s =>
      if s = "" then { st with skipped := st.skipped ++ [path] }
      else
        match oracle path with
        | none =>
            { st with deletedCount := st.deletedCount + 1,
                      requests := st.requests ++ [(path, s)] }
        | some msg =>
            { st with errorCount := st.errorCount + 1,
                      lastError := classifyError msg,
                      requests := st.requests ++ [(path, s)] }
  | none => { st with skipped := st.skipped ++ [path] }

/-- The whole deletion loop of `executeDelete`, sequential over the selected
paths. -/
def executeDeleteBatch (groups : List DuplicateGroup) (oracle : String → Option String)
    (paths : List String) : BatchState :=
  paths.foldl (deleteStep groups oracle) initialBatchState

/-- The batch outcome: the final tally plus whether the automatic rescan was
scheduled (`if (errorCount === 0) setTimeout(handleScan, 1500)`). -/
structure BatchResult where
  final : BatchState
  rescanTriggered : Bool
deriving Repr, DecidableEq

/-- `executeDelete`: an empty selection returns immediately (no batch, no
rescan, modelled as `none`); otherwise the loop runs and the rescan is
scheduled exactly when the error count is zero. -/
def executeDelete (groups : List DuplicateGroup) (oracle : String → Option String)
    (paths : List String) : Option BatchResult :=
  if paths = [] then none
  else
    some ⟨executeDeleteBatch groups oracle paths,
          (executeDeleteBatch groups oracle paths).errorCount == 0⟩

/-- The last failure message of a batch: the message of the latest issued
request that failed, if any.  Auxiliary accumulator form. -/
def lastFailAux (groups : List DuplicateGroup) (oracle : String → Option String)
    (acc : Option String) (paths : List String) : Option String :=
  paths.foldl
    (fun acc p =>
      if usableSha groups p then
        match oracle p with
        | some m => some m
        | none => acc
      else acc)
    acc

/-- The last failure message of a batch. -/
def lastFailureMsg (groups : List DuplicateGroup) (oracle : String → Option String)
    (paths : List String) : Option String :=
  lastFailAux groups oracle none paths

/-!
### Scene sandbox (modelled from the spec)

The scene sandbox lives in `BabylonScene.tsx`, which is not part of the
repository snapshot (only its caller `VisualizerTab.tsx` and the code
generator prompt are); the definitions of this section are therefore
modelled from the specification, section 4.2.
-/

/-- Modelled from the spec: a camera of the rendering library, reduced to
the facts the repair policy speaks about — its position, its look-at target
and whether user-interactive controls are attached. -/
structure SceneCamera where
  position : Int × Int × Int
  target : Int × Int × Int
  controlsAttached : Bool
deriving Repr, DecidableEq

/-- Modelled from the spec: a light, reduced to its kind tag. -/
structure SceneLight where
  kind : String
deriving Repr, DecidableEq

/-- Modelled from the spec: a mesh, reduced to its shape and material
tags. -/
structure SceneMesh where
  shape : String
  material : String
deriving Repr, DecidableEq

/-- Modelled from the spec: the scene state the repair policy inspects —
the optional active camera and the lights and meshes collections. -/
structure Scene where
  activeCamera : Option SceneCamera
  lights : List SceneLight
  meshes : List SceneMesh
deriving Repr, DecidableEq

/-- Modelled from the spec: the default fixed front-facing camera injected
by the repair policy — canonical position, looking at the origin, no
user-interactive controls attached. -/
def defaultCamera : SceneCamera := ⟨(0, 0, -10), (0, 0, 0), false⟩

/-- Modelled from the spec: the default ambient/hemispheric light injected
by the repair policy. -/
def defaultLight : SceneLight := ⟨"hemispheric"⟩

/-- Modelled from the spec: the canonical error marker — a small box with a
distinct, easily recognizable material. -/
def fallbackMarkerMesh : SceneMesh := ⟨"box", "errorMarker"⟩

/-- Modelled from the spec, section 4.2 repair policy: if the scene has no
active camera, inject the default camera; if it has no lights, inject the
default light.  Applied whether or not execution threw. -/
def repairScene (s : Scene) : Scene :=
  let s1 := if s.activeCamera.isNone then { s with activeCamera := some defaultCamera } else s
  if s1.lights.isEmpty then { s1 with lights := [defaultLight] } else s1

/-- Modelled from the spec, section 4.2 failure policy: if the failed scene
has zero visible geometry, inject one canonical marker mesh. -/
def applyErrorFallback (s : Scene) : Scene :=
  if s.meshes.isEmpty then { s with meshes := [fallbackMarkerMesh] } else s

/-- Modelled from the spec: execute a scene program against a fresh scene.
The program is an opaque state transformer returning the (possibly
partially built) scene it left behind together with `some description` when
it threw.  On a throw the error fallback is applied; the structural repair
runs in every case. -/
def runSceneProgram (prog : Scene → Scene × Option String) (fresh : Scene) : Scene :=
  match prog fresh with
  | (s, none) => repairScene s
  | (s, some _) => repairScene (applyErrorFallback s)

/-!
### Concrete fixtures used by the claims and their witnesses
-/

/-- The tie-break example of the claim: three names sharing one hash. -/
def exThreeNames : List GitHubFile :=
  [⟨"img.png", "file", some "h1", "lumina-exports/img.png"⟩,
   ⟨"image.png", "file", some "h1", "lumina-exports/image.png"⟩,
   ⟨"a.png", "file", some "h1", "lumina-exports/a.png"⟩]

/-- The equal-length tie-break example of the claim. -/
def exTwoNames : List GitHubFile :=
  [⟨"bbb.png", "file", some "h2", "lumina-exports/bbb.png"⟩,
   ⟨"aaa.png", "file", some "h2", "lumina-exports/aaa.png"⟩]

/-- Two records both lacking a content hash. -/
def exNoHash : List GitHubFile :=
  [⟨"a.png", "file", none, "lumina-exports/a.png"⟩,
   ⟨"b.png", "file", none, "lumina-exports/b.png"⟩]

/-- A duplicate group holding three selected paths with usable shas. -/
def exGroups : List DuplicateGroup :=
  [⟨some "h1",
    [⟨"f1.png", "file", some "h1", "lumina/f1.png"⟩,
     ⟨"f2.png", "file", some "h1", "lumina/f2.png"⟩,
     ⟨"f3.png", "file", some "h1", "lumina/f3.png"⟩]⟩]

/-- The three selected paths of `exGroups`. -/
def exPaths : List String := ["lumina/f1.png", "lumina/f2.png", "lumina/f3.png"]

/-- An outcome pattern where exactly the second request fails. -/
def oracleSecondFails : String → Option String :=
  fun p => if p = "lumina/f2.png" then some "boom" else none

/-- An outcome pattern where every request succeeds. -/
def oracleAllOk : String → Option String := fun _ => none

/-- An outcome pattern where every request fails with an empty message. -/
def oracleEmptyMsg : String → Option String := fun _ => some ""

/-- A dotless file name of type `file`, for the extension edge case. -/
def exDotlessFile : GitHubFile := ⟨"png", "file", some "h9", "lumina-exports/png"⟩

/-- A small listing with a directory entry and a non-image file. -/
def exListing : List GitHubFile :=
  [⟨"sub", "dir", some "t1", "lumina-exports/sub"⟩,
   ⟨"cat.PNG", "file", some "h3", "lumina-exports/cat.PNG"⟩,
   ⟨"notes.txt", "file", some "h4", "lumina-exports/notes.txt"⟩]

/-- A scene program that throws immediately, leaving the scene untouched. -/
def exThrowingProg : Scene → Scene × Option String :=
  fun s => (s, some "TypeError: boom")

/-- A fresh scene with no camera, no lights, no meshes. -/
def exFreshScene : Scene := ⟨none, [], []⟩

/-- A scene already holding one content mesh. -/
def exMeshScene : Scene := ⟨none, [], [⟨"sphere", "standard"⟩]⟩

/-- The image record of `exListing`. -/
def exCatRecord : GitHubFile := ⟨"cat.PNG", "file", some "h3", "lumina-exports/cat.PNG"⟩

/-- The single duplicate group that scanning `exThreeNames` yields. -/
def exThreeGroup : DuplicateGroup :=
  ⟨some "h1",
   [⟨"a.png", "file", some "h1", "lumina-exports/a.png"⟩,
    ⟨"img.png", "file", some "h1", "lumina-exports/img.png"⟩,
    ⟨"image.png", "file", some "h1", "lumina-exports/image.png"⟩]⟩

/-- The keep member of `exThreeGroup`. -/
def exKeepRecord : GitHubFile := ⟨"a.png", "file", some "h1", "lumina-exports/a.png"⟩

/-!
### Helper lemmas: the sort order
-/

theorem fileLe_total : ∀ a b : GitHubFile, fileLe a b ∨ fileLe b a := by
  intro a b
  unfold fileLe
  rcases Nat.lt_trichotomy a.name.length b.name.length with h | h | h
  · exact Or.inl (Or.inl h)
  · have tri : List.Lex (· < ·) a.name.toList b.name.toList ∨
        a.name.toList = b.name.toList ∨
        List.Lex (· < ·) b.name.toList a.name.toList :=
      lt_trichotomy a.name.toList b.name.toList
    rcases tri with hl | hl | hl
    · exact Or.inl (Or.inr ⟨h, Or.inl hl⟩)
    · exact Or.inl (Or.inr ⟨h, Or.inr hl⟩)
    · exact Or.inr (Or.inr ⟨h.symm, Or.inl hl⟩)
  · exact Or.inr (Or.inl h)

instance : IsTotal GitHubFile fileLe := ⟨fileLe_total⟩

theorem fileLe_trans : ∀ a b c : GitHubFile, fileLe a b → fileLe b c → fileLe a c := by
  intro a b c hab hbc
  unfold fileLe at hab hbc ⊢
  rcases hab with h1 | ⟨e1, l1⟩
  · rcases hbc with h2 | ⟨e2, _⟩
    · exact Or.inl (h1.trans h2)
    · exact Or.inl (by omega)
  · rcases hbc with h2 | ⟨e2, l2⟩
    · exact Or.inl (by omega)
    · refine Or.inr ⟨e1.trans e2, ?_⟩
      rcases l1 with l1 | l1
      · rcases l2 with l2 | l2
        · exact Or.inl (lt_trans (α := List Char) l1 l2)
        · exact Or.inl (l2 ▸ l1)
      · rcases l2 with l2 | l2
        · exact Or.inl (l1.symm ▸ l2)
        · exact Or.inr (l1.trans l2)

instance : IsTrans GitHubFile fileLe := ⟨fileLe_trans⟩

theorem sortFiles_sorted (l : List GitHubFile) : List.Sorted fileLe (sortFiles l) :=
  List.sorted_insertionSort fileLe l

theorem sortFiles_perm (l : List GitHubFile) : (sortFiles l).Perm l :=
  List.perm_insertionSort fileLe l

/-!
### Helper lemmas: the hash map built by the scan
-/

theorem buildShaMap_snoc (l : List GitHubFile) (f : GitHubFile) :
    buildShaMap (l ++ [f]) = upsertSha (buildShaMap l) f := by
  simp [buildShaMap, List.foldl_append]

theorem encounterShas_snoc (l : List GitHubFile) (f : GitHubFile) :
    encounterShas (l ++ [f])
      = if f.sha ∈ encounterShas l then encounterShas l
        else encounterShas l ++ [f.sha] := by
  simp [encounterShas, List.foldl_append]

theorem mem_encounterShas (l : List GitHubFile) :
    ∀ k, k ∈ encounterShas l ↔ ∃ f ∈ l, f.sha = k := by
  induction l using List.reverseRecOn with
  | nil => simp [encounterShas]
  | append_singleton l f ih =>
      intro k
      rw [encounterShas_snoc]
      by_cases h : f.sha ∈ encounterShas l
      · rw [if_pos h]
        rw [ih]
        have hex := (ih f.sha).mp h
        simp only [List.mem_append, List.mem_singleton]
        constructor
        · rintro ⟨g, hg, hk⟩
          exact ⟨g, Or.inl hg, hk⟩
        · rintro ⟨g, hg | hg, hk⟩
          · exact ⟨g, hg, hk⟩
          · subst hg
            obtain ⟨g', hg', hk'⟩ := hex
            exact ⟨g', hg', hk'.trans hk⟩
      · rw [if_neg h]
        simp only [List.mem_append, List.mem_singleton, ih]
        constructor
        · rintro (⟨g, hg, hk⟩ | hk)
          · exact ⟨g, Or.inl hg, hk⟩
          · exact ⟨f, Or.inr rfl, hk.symm⟩
        · rintro ⟨g, hg | hg, hk⟩
          · exact Or.inl ⟨g, hg, hk⟩
          · subst hg
            exact Or.inr hk.symm

theorem nodup_encounterShas (l : List GitHubFile) : (encounterShas l).Nodup := by
  induction l using List.reverseRecOn with
  | nil => simp [encounterShas]
  | append_singleton l f ih =>
      rw [encounterShas_snoc]
      by_cases h : f.sha ∈ encounterShas l
      · rwa [if_pos h]
      · rw [if_neg h]
        simp [List.nodup_append, ih, h]

theorem upsertSha_map_mem (G : Option String → List GitHubFile) (f : GitHubFile) :
    ∀ ks : List (Option String), f.sha ∈ ks → ks.Nodup →
      upsertSha (ks.map fun k => (k, G k)) f
        = ks.map fun k => (k, G k ++ if k = f.sha then [f] else []) := by
  intro ks
  induction ks with
  | nil => intro h; cases h
  | cons k0 rest ih =>
      intro hmem hnd
      simp only [List.map_cons, upsertSha]
      by_cases h0 : k0 = f.sha
      · rw [if_pos h0]
        have hk0 : k0 ∉ rest := (List.nodup_cons.mp hnd).1
        congr 1
        · rw [if_pos h0]
        · refine (List.map_congr_left ?_).symm
          intro k hk
          have hne : k ≠ f.sha := fun he => hk0 (h0 ▸ he ▸ hk)
          rw [if_neg hne, List.append_nil]
      · rw [if_neg h0]
        have hmem' : f.sha ∈ rest := by
          rcases List.mem_cons.mp hmem with he | he
          · exact absurd he.symm h0
          · exact he
        rw [if_neg h0, List.append_nil] at *
        rw [ih hmem' (List.nodup_cons.mp hnd).2]

theorem upsertSha_map_not_mem (G : Option String → List GitHubFile) (f : GitHubFile) :
    ∀ ks : List (Option String), f.sha ∉ ks →
      upsertSha (ks.map fun k => (k, G k)) f
        = (ks.map fun k => (k, G k)) ++ [(f.sha, [f])] := by
  intro ks
  induction ks with
  | nil => intro _; rfl
  | cons k0 rest ih =>
      intro h
      have h0 : k0 ≠ f.sha := fun he => h (he ▸ List.mem_cons_self k0 rest)
      have h1 : f.sha ∉ rest := fun he => h (List.mem_cons_of_mem k0 he)
      simp only [List.map_cons, upsertSha]
      rw [if_neg h0, ih h1, List.cons_append]

theorem buildShaMap_eq (files : List GitHubFile) :
    buildShaMap files
      = (encounterShas files).map
          fun k => (k, files.filter fun f => decide (f.sha = k)) := by
  induction files using List.reverseRecOn with
  | nil => rfl
  | append_singleton l f ih =>
      rw [buildShaMap_snoc, ih, encounterShas_snoc]
      by_cases h : f.sha ∈ encounterShas l
      · rw [if_pos h, upsertSha_map_mem _ _ _ h (nodup_encounterShas l)]
        apply List.map_congr_left
        intro k _
        have : List.filter (fun f2 => decide (f2.sha = k)) [f]
            = if k = f.sha then [f] else [] := by
          by_cases hkf : f.sha = k
          · simp [hkf]
          · have hkf2 : ¬k = f.sha := fun he => hkf he.symm
            simp [hkf, hkf2]
        rw [List.filter_append, this]
      · rw [if_neg h, upsertSha_map_not_mem _ _ _ h, List.map_append]
        congr 1
        · apply List.map_congr_left
          intro k hk
          have hne : f.sha ≠ k := fun he => h (he ▸ hk)
          simp [List.filter_append, hne]
        · have hnil : l.filter (fun f2 => decide (f2.sha = f.sha)) = [] := by
            rw [List.filter_eq_nil_iff]
            intro a ha hdec
            exact h ((mem_encounterShas l f.sha).mpr ⟨a, ha, of_decide_eq_true hdec⟩)
          simp [List.filter_append, hnil]

theorem scanDupes_foldl (m : List (Option String × List GitHubFile)) :
    ∀ acc : List DuplicateGroup,
      m.foldl
          (fun dupes entry =>
            if 1 < entry.2.length then
              dupes ++ [(⟨entry.1, sortFiles entry.2⟩ : DuplicateGroup)]
            else dupes)
          acc
        = acc ++ m.filterMap
            (fun e =>
              if 1 < e.2.length then some (⟨e.1, sortFiles e.2⟩ : DuplicateGroup)
              else none) := by
  induction m with
  | nil => simp
  | cons e rest ih =>
      intro acc
      by_cases h : 1 < e.2.length <;>
        simp [h, ih, List.filterMap_cons]

theorem filterMap_ite {α β : Type} (p : α → Prop) [DecidablePred p] (f : α → β) :
    ∀ l : List α,
      (l.filterMap fun a => if p a then some (f a) else none)
        = (l.filter fun a => decide (p a)).map f := by
  intro l
  induction l with
  | nil => rfl
  | cons a rest ih => by_cases h : p a <;> simp [h, ih, List.filterMap_cons]

theorem scanDupes_eq_spec (files : List GitHubFile) :
    scanDupes files = specGrouping files := by
  unfold scanDupes specGrouping
  rw [buildShaMap_eq, scanDupes_foldl, List.nil_append, List.filterMap_map]
  exact filterMap_ite
    (fun k => 1 < (files.filter fun f => decide (f.sha = k)).length)
    (fun k => (⟨k, sortFiles (files.filter fun f => decide (f.sha = k))⟩ : DuplicateGroup))
    (encounterShas files)

theorem mem_scanDupes (files : List GitHubFile) :
    ∀ g, g ∈ scanDupes files ↔
      ∃ k, k ∈ encounterShas files ∧
        1 < (files.filter fun f => decide (f.sha = k)).length ∧
        g = ⟨k, sortFiles (files.filter fun f => decide (f.sha = k))⟩ := by
  intro g
  rw [scanDupes_eq_spec]
  unfold specGrouping
  simp only [List.mem_map, List.mem_filter, decide_eq_true_eq]
  constructor
  · rintro ⟨k, ⟨hk, hlen⟩, hg⟩
    exact ⟨k, hk, hlen, hg.symm⟩
  · rintro ⟨k, hk, hlen, hg⟩
    exact ⟨k, ⟨hk, hlen⟩, hg.symm⟩

theorem scanDupes_group_files (files : List GitHubFile) (g : DuplicateGroup)
    (hg : g ∈ scanDupes files) :
    g.files = sortFiles (files.filter fun f => decide (f.sha = g.sha)) ∧
      1 < (files.filter fun f => decide (f.sha = g.sha)).length := by
  obtain ⟨k, _, hlen, hgeq⟩ := (mem_scanDupes files g).mp hg
  subst hgeq
  exact ⟨rfl, hlen⟩

theorem mem_of_mem_group (files : List GitHubFile) (g : DuplicateGroup)
    (hg : g ∈ scanDupes files) :
    ∀ f ∈ g.files, f ∈ files ∧ f.sha = g.sha := by
  intro f hf
  obtain ⟨hfiles, _⟩ := scanDupes_group_files files g hg
  rw [hfiles] at hf
  have hf2 := (sortFiles_perm _).mem_iff.mp hf
  have := List.mem_filter.mp hf2
  exact ⟨this.1, of_decide_eq_true this.2⟩

theorem scanDupes_sha_inj (files : List GitHubFile) (g g' : DuplicateGroup)
    (hg : g ∈ scanDupes files) (hg' : g' ∈ scanDupes files)
    (hsha : g.sha = g'.sha) : g = g' := by
  obtain ⟨k, _, _, hgeq⟩ := (mem_scanDupes files g).mp hg
  obtain ⟨k', _, _, hgeq'⟩ := (mem_scanDupes files g').mp hg'
  subst hgeq hgeq'
  simp only at hsha
  subst hsha
  rfl

theorem mem_addPath (td : List String) (p q : String) :
    q ∈ addPath td p ↔ q ∈ td ∨ q = p := by
  unfold addPath
  by_cases h : p ∈ td
  · rw [if_pos h]
    exact ⟨Or.inl, fun hh => hh.elim id (fun e => e ▸ h)⟩
  · rw [if_neg h]
    simp

theorem mem_foldl_addPath (l : List GitHubFile) :
    ∀ (td : List String) (q : String),
      q ∈ l.foldl (fun td2 f => addPath td2 f.path) td ↔
        q ∈ td ∨ ∃ f ∈ l, f.path = q := by
  induction l with
  | nil => simp
  | cons f0 rest ih =>
      intro td q
      simp only [List.foldl_cons, ih, mem_addPath, List.mem_cons]
      constructor
      · rintro ((hq | hq) | ⟨f, hf, hq⟩)
        · exact Or.inl hq
        · exact Or.inr ⟨f0, Or.inl rfl, hq.symm⟩
        · exact Or.inr ⟨f, Or.inr hf, hq⟩
      · rintro (hq | ⟨f, hf | hf, hq⟩)
        · exact Or.inl (Or.inl hq)
        · subst hf
          exact Or.inl (Or.inr hq.symm)
        · exact Or.inr ⟨f, hf, hq⟩

theorem mem_foldl_groups (gs : List DuplicateGroup) :
    ∀ (td : List String) (q : String),
      q ∈ gs.foldl
          (fun td g => (g.files.drop 1).foldl (fun td2 f => addPath td2 f.path) td) td ↔
        q ∈ td ∨ ∃ g ∈ gs, ∃ f ∈ g.files.drop 1, f.path = q := by
  induction gs with
  | nil => simp
  | cons g0 rest ih =>
      intro td q
      simp only [List.foldl_cons, ih, mem_foldl_addPath, List.mem_cons]
      constructor
      · rintro ((hq | ⟨f, hf, hq⟩) | ⟨g, hg, f, hf, hq⟩)
        · exact Or.inl hq
        · exact Or.inr ⟨g0, Or.inl rfl, f, hf, hq⟩
        · exact Or.inr ⟨g, Or.inr hg, f, hf, hq⟩
      · rintro (hq | ⟨g, hg | hg, f, hf, hq⟩)
        · exact Or.inl (Or.inl hq)
        · subst hg
          exact Or.inl (Or.inr ⟨f, hf, hq⟩)
        · exact Or.inr ⟨g, hg, f, hf, hq⟩

theorem mem_scanToDelete (files : List GitHubFile) :
    ∀ p, p ∈ scanToDelete files ↔
      ∃ g ∈ scanDupes files, ∃ f ∈ g.files.drop 1, f.path = p := by
  intro p
  unfold scanToDelete
  rw [mem_foldl_groups]
  simp

/-!
### Helper lemmas: the deletion batch
-/

theorem deleteStep_eq (groups : List DuplicateGroup) (oracle : String → Option String)
    (st : BatchState) (path : String) :
    deleteStep groups oracle st path =
      if usableSha groups path then
        match oracle path with
        | none =>
            { st with deletedCount := st.deletedCount + 1,
                      requests := st.requests ++ [(path, shaOf groups path)] }
        | some msg =>
            { st with errorCount := st.errorCount + 1,
                      lastError := classifyError msg,
                      requests := st.requests ++ [(path, shaOf groups path)] }
      else { st with skipped := st.skipped ++ [path] } := by
  unfold deleteStep usableSha shaOf
  cases h : resolveSha groups path with
  | none => simp
  | some s =>
      by_cases hs : s = ""
      · subst hs
        simp
      · simp only [hs, decide_not, Option.getD_some]
        cases oracle path <;> simp [hs]

theorem batch_requests (groups : List DuplicateGroup) (oracle : String → Option String) :
    ∀ (paths : List String) (st : BatchState),
      (paths.foldl (deleteStep groups oracle) st).requests
        = st.requests ++ (paths.filter fun p => usableSha groups p).map
            (fun p => (p, shaOf groups p)) := by
  intro paths
  induction paths with
  | nil => intro st; simp
  | cons p rest ih =>
      intro st
      rw [List.foldl_cons, ih]
      by_cases h : usableSha groups p
      · cases horacle : oracle p <;>
          simp [deleteStep_eq, h, horacle, List.filter_cons, List.append_assoc]
      · simp [deleteStep_eq, h, List.filter_cons]

theorem batch_deleted (groups : List DuplicateGroup) (oracle : String → Option String) :
    ∀ (paths : List String) (st : BatchState),
      (paths.foldl (deleteStep groups oracle) st).deletedCount
        = st.deletedCount
          + ((paths.filter fun p => usableSha groups p).filter
              fun p => (oracle p).isNone).length := by
  intro paths
  induction paths with
  | nil => intro st; simp
  | cons p rest ih =>
      intro st
      rw [List.foldl_cons, ih]
      by_cases h : usableSha groups p
      · cases horacle : oracle p <;>
          simp [deleteStep_eq, h, horacle, List.filter_cons]
        omega
      · simp [deleteStep_eq, h, List.filter_cons]

theorem batch_errors (groups : List DuplicateGroup) (oracle : String → Option String) :
    ∀ (paths : List String) (st : BatchState),
      (paths.foldl (deleteStep groups oracle) st).errorCount
        = st.errorCount
          + ((paths.filter fun p => usableSha groups p).filter
              fun p => (oracle p).isSome).length := by
  intro paths
  induction paths with
  | nil => intro st; simp
  | cons p rest ih =>
      intro st
      rw [List.foldl_cons, ih]
      by_cases h : usableSha groups p
      · cases horacle : oracle p <;>
          simp [deleteStep_eq, h, horacle, List.filter_cons]
        omega
      · simp [deleteStep_eq, h, List.filter_cons]

theorem batch_skipped (groups : List DuplicateGroup) (oracle : String → Option String) :
    ∀ (paths : List String) (st : BatchState),
      (paths.foldl (deleteStep groups oracle) st).skipped
        = st.skipped ++ paths.filter (fun p => !(usableSha groups p)) := by
  intro paths
  induction paths with
  | nil => intro st; simp
  | cons p rest ih =>
      intro st
      rw [List.foldl_cons, ih]
      by_cases h : usableSha groups p
      · cases horacle : oracle p <;>
          simp [deleteStep_eq, h, horacle, List.filter_cons]
      · simp [deleteStep_eq, h, List.filter_cons, List.append_assoc]

theorem lastFailAux_cons (groups : List DuplicateGroup) (oracle : String → Option String)
    (p : String) (rest : List String) (acc : Option String) :
    lastFailAux groups oracle acc (p :: rest)
      = lastFailAux groups oracle
          (if usableSha groups p then
            match oracle p with
            | some m => some m
            | none => acc
          else acc)
          rest := rfl

theorem lastFailAux_acc (groups : List DuplicateGroup) (oracle : String → Option String) :
    ∀ (paths : List String) (acc : Option String),
      lastFailAux groups oracle acc paths
        = match lastFailAux groups oracle none paths with
          | none => acc
          | some m => some m := by
  intro paths
  induction paths with
  | nil => intro acc; rfl
  | cons p rest ih =>
      intro acc
      rw [lastFailAux_cons, lastFailAux_cons]
      by_cases h : usableSha groups p
      · cases horacle : oracle p with
        | none =>
            simp only [h, if_true, horacle]
            rw [ih acc]
        | some m =>
            simp only [h, if_true, horacle]
            rw [ih (some m)]
            cases lastFailAux groups oracle none rest <;> rfl
      · simp only [if_neg h]
        rw [ih acc]

theorem batch_lastError (groups : List DuplicateGroup) (oracle : String → Option String) :
    ∀ (paths : List String) (st : BatchState),
      (paths.foldl (deleteStep groups oracle) st).lastError
        = match lastFailureMsg groups oracle paths with
          | none => st.lastError
          | some m => classifyError m := by
  intro paths
  induction paths with
  | nil => intro st; rfl
  | cons p rest ih =>
      intro st
      rw [List.foldl_cons, ih]
      unfold lastFailureMsg
      rw [lastFailAux_cons]
      by_cases h : usableSha groups p
      · cases horacle : oracle p with
        | none =>
            simp [h, horacle, deleteStep_eq]
        | some m =>
            simp only [h, if_true, horacle, deleteStep_eq]
            rw [lastFailAux_acc groups oracle rest (some m)]
            cases lastFailAux groups oracle none rest <;> rfl
      · simp [h, deleteStep_eq]

theorem isSome_eq_not_isNone {α : Type} (x : Option α) : x.isSome = !x.isNone := by
  cases x <;> rfl

theorem length_filter_pair {α : Type} (p : α → Bool) :
    ∀ l : List α, (l.filter p).length + (l.filter fun a => !(p a)).length = l.length := by
  intro l
  induction l with
  | nil => rfl
  | cons a rest ih => cases h : p a <;> simp [List.filter_cons, h] <;> omega

theorem group_paths_nodup (files : List GitHubFile) (g : DuplicateGroup)
    (hnd : (files.map fun f => f.path).Nodup) (hg : g ∈ scanDupes files) :
    ((g.files.map fun f => f.path)).Nodup := by
  obtain ⟨hfiles, _⟩ := scanDupes_group_files files g hg
  have hperm : ((g.files.map fun f => f.path)).Perm
      (((files.filter fun f => decide (f.sha = g.sha)).map fun f => f.path)) := by
    rw [hfiles]
    exact (sortFiles_perm _).map _
  have hsub : (((files.filter fun f => decide (f.sha = g.sha)).map fun f => f.path)).Sublist
      ((files.map fun f => f.path)) :=
    (List.filter_sublist files).map _
  exact hperm.symm.nodup (hsub.nodup hnd)

/-!
### Claims
-/

/-- C1: for every scanned file list the duplicate detector groups records by
content hash preserving encounter order, keeps only groups with more than
one member, sorts each surviving group by ascending name length and then
ascending lexicographic name order, and designates the first member as the
keep member; in particular `a.png` is kept among
`img.png, image.png, a.png`, and `aaa.png` among `bbb.png, aaa.png`. -/
theorem grouping_matches_spec :
    ∀ files : List GitHubFile,
      (scanDupes files = specGrouping files ∧
        ∀ g ∈ scanDupes files, List.Pairwise fileLe g.files ∧ 2 ≤ g.files.length) ∧
      (scanDupes exThreeNames).map (fun g => g.files.map fun f => f.name)
          = [["a.png", "img.png", "image.png"]] ∧
      (scanDupes exTwoNames).map (fun g => (g.files.map fun f => f.name).head?)
          = [some "aaa.png"] := by
  intro files
  refine ⟨⟨scanDupes_eq_spec files, ?_⟩, by decide, by decide⟩
  intro g hg
  obtain ⟨hfiles, hlen⟩ := scanDupes_group_files files g hg
  constructor
  · rw [hfiles]
    exact sortFiles_sorted _
  · rw [hfiles, (sortFiles_perm _).length_eq]
    omega

/-- Witness for C1 at the concrete three-name fixture: the surviving group
is sorted and has at least two members. -/
theorem grouping_matches_spec_witness :
    List.Pairwise fileLe exThreeGroup.files ∧ 2 ≤ exThreeGroup.files.length :=
  (grouping_matches_spec exThreeNames).1.2 exThreeGroup (by decide)

/-- C4: the initial deletion selection holds exactly the paths of the
redundant members (every group member except the designated keep member at
index 0); when the scanned paths are distinct, no keep member path is
selected. -/
theorem initial_selection_is_redundant_members :
    ∀ files : List GitHubFile,
      (∀ p, p ∈ scanToDelete files ↔
        ∃ g ∈ scanDupes files, ∃ f ∈ g.files.drop 1, f.path = p) ∧
      ((files.map fun f => f.path).Nodup →
        ∀ g ∈ scanDupes files, ∀ f0, g.files.head? = some f0 →
          f0.path ∉ scanToDelete files) := by
  intro files
  refine ⟨mem_scanToDelete files, ?_⟩
  intro hnd g hg f0 hhead hmem
  obtain ⟨g', hg', f', hf', hpath⟩ := (mem_scanToDelete files f0.path).mp hmem
  have hf'g : f' ∈ g'.files := List.mem_of_mem_drop hf'
  have hf0g : f0 ∈ g.files := by
    cases hfe : g.files with
    | nil => rw [hfe] at hhead; cases hhead
    | cons a t =>
        rw [hfe] at hhead
        have ha : a = f0 := by simpa using hhead
        rw [← ha]
        exact List.mem_cons_self a t
  have h1 := mem_of_mem_group files g hg f0 hf0g
  have h2 := mem_of_mem_group files g' hg' f' hf'g
  have hff : f' = f0 := List.inj_on_of_nodup_map hnd h2.1 h1.1 (by rw [hpath])
  have hgg : g' = g :=
    scanDupes_sha_inj files g' g hg' hg (by rw [← h2.2, hff, h1.2])
  subst hgg
  have hnodup := group_paths_nodup files g' hnd hg'
  cases hfe : g'.files with
  | nil => rw [hfe] at hhead; cases hhead
  | cons a t =>
      rw [hfe] at hhead
      have ha : a = f0 := by simpa using hhead
      rw [hfe] at hf'
      simp only [List.drop_succ_cons, List.drop_zero] at hf'
      rw [hfe] at hnodup
      simp only [List.map_cons, List.nodup_cons] at hnodup
      exact hnodup.1 (by
        rw [ha, ← hpath] at *
        exact List.mem_map_of_mem (fun f => f.path) hf')

/-- Witness for C4: at the three-name fixture the keep member path is not
selected, and a redundant path is. -/
theorem initial_selection_witness :
    exKeepRecord.path ∉ scanToDelete exThreeNames ∧
      "lumina-exports/img.png" ∈ scanToDelete exThreeNames :=
  ⟨(initial_selection_is_redundant_members exThreeNames).2 (by decide)
      exThreeGroup (by decide) exKeepRecord (by decide),
   by decide⟩

/-- C5: grouping is a pure, deterministic function of the input sequence:
two runs on the same file list produce the same groups, the same selection
and the same keep designation. -/
theorem grouping_deterministic :
    ∀ (files : List GitHubFile) (r1 r2 : List DuplicateGroup × List String),
      r1 = (scanDupes files, scanToDelete files) →
      r2 = (scanDupes files, scanToDelete files) →
      r1 = r2 ∧ r1.1.map (fun g => g.files.head?) = r2.1.map (fun g => g.files.head?) := by
  intro files r1 r2 h1 h2
  subst h1
  subst h2
  exact ⟨rfl, rfl⟩

/-- Witness for C5 at the two-name fixture. -/
theorem grouping_deterministic_witness :
    (scanDupes exTwoNames, scanToDelete exTwoNames)
        = (scanDupes exTwoNames, scanToDelete exTwoNames) ∧
      (scanDupes exTwoNames, scanToDelete exTwoNames).1.map (fun g => g.files.head?)
        = (scanDupes exTwoNames, scanToDelete exTwoNames).1.map (fun g => g.files.head?) :=
  grouping_deterministic exTwoNames _ _ rfl rfl

/-- Counterexample to C8 as stated: two records without a content hash are
not excluded from grouping — they are grouped together under the missing
hash key and the second one is marked for deletion. -/
theorem missing_hash_counterexample :
    (exNoHash.map fun f => f.sha) = [none, none] ∧
    (scanDupes exNoHash).map (fun g => g.sha) = [none] ∧
    scanToDelete exNoHash = ["lumina-exports/b.png"] := by decide

/-- C8 as amended: grouping never fails, but hashless records share the
missing-hash key like any other value; when at most one record lacks a
hash, no hashless record appears in any duplicate group, and every selected
path belongs to a group member carrying the group hash. -/
theorem missing_hash_grouping :
    ∀ files : List GitHubFile,
      ((files.filter fun f => decide (f.sha = none)).length ≤ 1 →
        ∀ g ∈ scanDupes files, g.sha ≠ none ∧ ∀ f ∈ g.files, f.sha ≠ none) ∧
      (∀ p ∈ scanToDelete files,
        ∃ g ∈ scanDupes files, ∃ f ∈ g.files, f.path = p ∧ f.sha = g.sha) := by
  intro files
  constructor
  · intro hle g hg
    obtain ⟨k, hk, hlen, hgeq⟩ := (mem_scanDupes files g).mp hg
    have hkne : k ≠ none := by
      intro he
      subst he
      omega
    constructor
    · rw [hgeq]
      exact hkne
    · intro f hf
      rw [(mem_of_mem_group files g hg f hf).2, hgeq]
      exact hkne
  · intro p hp
    obtain ⟨g, hg, f, hf, hpath⟩ := (mem_scanToDelete files p).mp hp
    have hfg := List.mem_of_mem_drop hf
    exact ⟨g, hg, f, hfg, hpath, (mem_of_mem_group files g hg f hfg).2⟩

/-- Witness for C8 (amended) at a fixture with no hashless record. -/
theorem missing_hash_grouping_witness : exThreeGroup.sha ≠ none :=
  ((missing_hash_grouping exThreeNames).1 (by decide) exThreeGroup (by decide)).1

theorem repairScene_spec (s : Scene) :
    (repairScene s).activeCamera.isSome = true ∧
    (s.activeCamera = none → (repairScene s).activeCamera = some defaultCamera) ∧
    (repairScene s).lights ≠ [] ∧
    (s.lights = [] → (repairScene s).lights = [defaultLight]) ∧
    (repairScene s).meshes = s.meshes := by
  unfold repairScene
  cases hc : s.activeCamera <;> cases hl : s.lights <;> simp [hc, hl]

theorem applyErrorFallback_spec (s : Scene) :
    (s.meshes = [] → (applyErrorFallback s).meshes = [fallbackMarkerMesh]) ∧
    (s.meshes ≠ [] → (applyErrorFallback s).meshes = s.meshes) ∧
    (applyErrorFallback s).activeCamera = s.activeCamera ∧
    (applyErrorFallback s).lights = s.lights := by
  unfold applyErrorFallback
  cases hm : s.meshes <;> simp [hm]

/-- C2: with every selected path resolvable, the executor issues one delete
request per path in order, continues past failures, and reports the success
count, the failure count and the classified last error message. -/
theorem executor_best_effort :
    ∀ (groups : List DuplicateGroup) (oracle : String → Option String) (paths : List String),
      (∀ p ∈ paths, usableSha groups p = true) →
      ((executeDeleteBatch groups oracle paths).requests.map Prod.fst = paths ∧
       (executeDeleteBatch groups oracle paths).deletedCount
         = (paths.filter fun p => (oracle p).isNone).length ∧
       (executeDeleteBatch groups oracle paths).errorCount
         = (paths.filter fun p => (oracle p).isSome).length ∧
       (executeDeleteBatch groups oracle paths).lastError
         = match lastFailureMsg groups oracle paths with
           | none => ""
           | some m => classifyError m) := by
  intro groups oracle paths h
  have hfil : paths.filter (fun p => usableSha groups p) = paths :=
    List.filter_eq_self.mpr h
  unfold executeDeleteBatch
  refine ⟨?_, ?_, ?_, ?_⟩
  · rw [batch_requests, hfil]
    have hcomp : (Prod.fst ∘ fun p => (p, shaOf groups p)) = id := rfl
    simp [initialBatchState, List.map_map, hcomp]
  · rw [batch_deleted, hfil]
    simp [initialBatchState]
  · rw [batch_errors, hfil]
    simp [initialBatchState]
  · rw [batch_lastError]
    rfl

/-- Witness for C2: three requests, the second fails, the third is still
attempted, final tally deleted 2 and failed 1. -/
theorem executor_best_effort_witness :
    (executeDeleteBatch exGroups oracleSecondFails exPaths).requests.map Prod.fst = exPaths ∧
    (executeDeleteBatch exGroups oracleSecondFails exPaths).deletedCount = 2 ∧
    (executeDeleteBatch exGroups oracleSecondFails exPaths).errorCount = 1 ∧
    "lumina/f3.png" ∈ (executeDeleteBatch exGroups oracleSecondFails exPaths).requests.map Prod.fst :=
  ⟨(executor_best_effort exGroups oracleSecondFails exPaths (by decide)).1,
   by decide, by decide, by decide⟩

/-- C3: for a non-empty batch the automatic rescan is triggered exactly when
the error count is zero, equivalently exactly when every issued request
succeeded. -/
theorem rescan_iff_zero_failures :
    ∀ (groups : List DuplicateGroup) (oracle : String → Option String)
      (paths : List String) (r : BatchResult),
      executeDelete groups oracle paths = some r →
      ((r.rescanTriggered = true ↔ r.final.errorCount = 0) ∧
       (r.rescanTriggered = true ↔ ∀ pr ∈ r.final.requests, oracle pr.1 = none)) := by
  intro groups oracle paths r hr
  unfold executeDelete at hr
  by_cases hp : paths = []
  · rw [if_pos hp] at hr
    cases hr
  · rw [if_neg hp] at hr
    have hr' : r = ⟨executeDeleteBatch groups oracle paths,
        (executeDeleteBatch groups oracle paths).errorCount == 0⟩ := by
      injection hr with h
      exact h.symm
    subst hr'
    have hbeq : (((executeDeleteBatch groups oracle paths).errorCount == 0) = true
        ↔ (executeDeleteBatch groups oracle paths).errorCount = 0) := by
      simp
    have key : (executeDeleteBatch groups oracle paths).errorCount = 0
        ↔ ∀ pr ∈ (executeDeleteBatch groups oracle paths).requests, oracle pr.1 = none := by
      unfold executeDeleteBatch
      rw [batch_errors, batch_requests]
      show 0 + _ = 0 ↔ ∀ pr ∈ [] ++ _, _
      rw [Nat.zero_add, List.nil_append, List.length_eq_zero, List.filter_eq_nil_iff]
      constructor
      · intro h pr hpr
        obtain ⟨p, hpF, hpr'⟩ := List.mem_map.mp hpr
        have h2 := h p hpF
        rw [← hpr']
        cases horacle : oracle p
        · rfl
        · exact absurd (by simp [horacle]) h2
      · intro h p hpF hsome
        have h2 := h (p, shaOf groups p) (List.mem_map_of_mem _ hpF)
        simp only at h2
        rw [h2] at hsome
        cases hsome
    exact ⟨hbeq, hbeq.trans key⟩

/-- Witness for C3: an all-success batch has error count zero (derived via
the theorem) and a batch with one failure does not trigger the rescan. -/
theorem rescan_iff_zero_failures_witness :
    (executeDeleteBatch exGroups oracleAllOk exPaths).errorCount = 0 ∧
    (executeDelete exGroups oracleSecondFails exPaths).map (fun r => r.rescanTriggered)
      = some false :=
  ⟨(rescan_iff_zero_failures exGroups oracleAllOk exPaths
      ⟨executeDeleteBatch exGroups oracleAllOk exPaths,
       (executeDeleteBatch exGroups oracleAllOk exPaths).errorCount == 0⟩ rfl).1.mp
      (by decide),
   by decide⟩

/-- C6: a delete request is issued exactly for the selected paths whose sha
resolves (from the in-memory groups) to a usable value, carrying that
resolved sha; the other paths are skipped with a warning, the batch
continues, and the skipped paths are counted neither as successes nor as
failures. -/
theorem missing_sha_skipped :
    ∀ (groups : List DuplicateGroup) (oracle : String → Option String) (paths : List String),
      (executeDeleteBatch groups oracle paths).requests
          = (paths.filter fun p => usableSha groups p).map (fun p => (p, shaOf groups p)) ∧
      (executeDeleteBatch groups oracle paths).skipped
          = paths.filter (fun p => !(usableSha groups p)) ∧
      (executeDeleteBatch groups oracle paths).deletedCount
          + (executeDeleteBatch groups oracle paths).errorCount
          = (executeDeleteBatch groups oracle paths).requests.length := by
  intro groups oracle paths
  refine ⟨?_, ?_, ?_⟩
  · unfold executeDeleteBatch
    rw [batch_requests]
    simp [initialBatchState]
  · unfold executeDeleteBatch
    rw [batch_skipped]
    simp [initialBatchState]
  · unfold executeDeleteBatch
    rw [batch_requests, batch_deleted, batch_errors]
    show 0 + _ + (0 + _) = ([] ++ _).length
    rw [Nat.zero_add, Nat.zero_add, List.nil_append, List.length_map]
    rw [List.filter_congr
      (fun p _ => by rw [isSome_eq_not_isNone (oracle p)] :
        ∀ p ∈ paths.filter fun p => usableSha groups p,
          ((oracle p).isSome : Bool) = !(oracle p).isNone)]
    exact length_filter_pair _ _

/-- Counterexample to C7 as stated: a failure whose message is empty is not
reported with its raw message — the report is the fixed text
`Unknown error`, although the message is not not-found shaped. -/
theorem raw_message_counterexample :
    (executeDeleteBatch exGroups oracleEmptyMsg ["lumina/f1.png"]).errorCount = 1 ∧
    (executeDeleteBatch exGroups oracleEmptyMsg ["lumina/f1.png"]).lastError = "Unknown error" ∧
    containsNotFound "" = false ∧ "Unknown error" ≠ "" := by decide

/-- C7 as amended: every failed request increments the failure counter and
classifies the error: a message containing `Not Found` is reported as the
scope/permission hint, any other non-empty message is reported verbatim,
and an empty message is reported as `Unknown error`. -/
theorem error_classification :
    ∀ (groups : List DuplicateGroup) (oracle : String → Option String)
      (st : BatchState) (path msg : String),
      usableSha groups path = true → oracle path = some msg →
      ((deleteStep groups oracle st path).errorCount = st.errorCount + 1 ∧
       (deleteStep groups oracle st path).deletedCount = st.deletedCount ∧
       (deleteStep groups oracle st path).lastError = classifyError msg ∧
       (containsNotFound msg = true → classifyError msg = notFoundHint) ∧
       (containsNotFound msg = false → msg ≠ "" → classifyError msg = msg) ∧
       (containsNotFound msg = false → msg = "" → classifyError msg = "Unknown error")) := by
  intro groups oracle st path msg hu ho
  have hstep : deleteStep groups oracle st path
      = { st with errorCount := st.errorCount + 1,
                  lastError := classifyError msg,
                  requests := st.requests ++ [(path, shaOf groups path)] } := by
    rw [deleteStep_eq, if_pos hu, ho]
  refine ⟨by rw [hstep], by rw [hstep], by rw [hstep], ?_, ?_, ?_⟩
  · intro hc
    simp [classifyError, hc]
  · intro hc hne
    simp [classifyError, hc, hne]
  · intro hc he
    subst he
    simp [classifyError, hc]

/-- Witness for C7 (amended) at the concrete failing request. -/
theorem error_classification_witness :
    (deleteStep exGroups oracleSecondFails initialBatchState "lumina/f2.png").errorCount = 1 ∧
    (deleteStep exGroups oracleSecondFails initialBatchState "lumina/f2.png").lastError
      = classifyError "boom" :=
  ⟨(error_classification exGroups oracleSecondFails initialBatchState "lumina/f2.png" "boom"
      (by decide) (by decide)).1,
   (error_classification exGroups oracleSecondFails initialBatchState "lumina/f2.png" "boom"
      (by decide) (by decide)).2.2.1⟩

/-- C9 (modelled from the spec, section 4.2): after any scene program run
the active scene is displayable — a missing camera is replaced by the
default fixed front-facing camera without interactive controls and missing
lights by the default hemispheric light; when the program threw on a scene
with zero meshes exactly one fallback marker mesh is added, and no marker
is added when meshes already exist. -/
theorem scene_always_displayable :
    ∀ (prog : Scene → Scene × Option String) (fresh : Scene),
      (runSceneProgram prog fresh).activeCamera.isSome = true ∧
      ((prog fresh).1.activeCamera = none →
        (runSceneProgram prog fresh).activeCamera = some defaultCamera ∧
          defaultCamera.controlsAttached = false) ∧
      (runSceneProgram prog fresh).lights ≠ [] ∧
      ((prog fresh).1.lights = [] → (runSceneProgram prog fresh).lights = [defaultLight]) ∧
      ((prog fresh).2.isSome = true → (prog fresh).1.meshes = [] →
        (runSceneProgram prog fresh).meshes = [fallbackMarkerMesh]) ∧
      ((prog fresh).1.meshes ≠ [] →
        (runSceneProgram prog fresh).meshes = (prog fresh).1.meshes) := by
  intro prog fresh
  rcases hp : prog fresh with ⟨s, err⟩
  simp only [hp]
  unfold runSceneProgram
  rw [hp]
  cases err with
  | none =>
      obtain ⟨h1, h2, h3, h4, h5⟩ := repairScene_spec s
      refine ⟨h1, fun hc => ⟨h2 hc, rfl⟩, h3, h4, ?_, fun _ => h5⟩
      intro habs
      cases habs
  | some e =>
      obtain ⟨h1, h2, h3, h4, h5⟩ := repairScene_spec (applyErrorFallback s)
      obtain ⟨f1, f2, f3, f4⟩ := applyErrorFallback_spec s
      refine ⟨h1, fun hc => ⟨h2 (by rw [f3, hc]), rfl⟩, h3, fun hl => h4 (by rw [f4, hl]),
        fun _ hm => ?_, fun hm => ?_⟩
      · rw [h5, f1 hm]
      · rw [h5, f2 hm]

/-- Witness for C9: a throwing program on an empty fresh scene yields the
marker plus default camera, and on a scene that already has a mesh the
marker is not added. -/
theorem scene_always_displayable_witness :
    (runSceneProgram exThrowingProg exFreshScene).meshes = [fallbackMarkerMesh] ∧
    (runSceneProgram exThrowingProg exFreshScene).activeCamera = some defaultCamera ∧
    (runSceneProgram exThrowingProg exMeshScene).meshes = exMeshScene.meshes :=
  ⟨(scene_always_displayable exThrowingProg exFreshScene).2.2.2.2.1 (by decide) (by decide),
   ((scene_always_displayable exThrowingProg exFreshScene).2.1 (by decide)).1,
   (scene_always_displayable exThrowingProg exMeshScene).2.2.2.2.2 (by decide)⟩

/-- Counterexample to C10 as stated: a file named `png` has no dot, hence no
"text after the last dot", yet `getRepoFiles` returns it. -/
theorem listing_extension_counterexample :
    getRepoFiles true (some [exDotlessFile]) = Except.ok [exDotlessFile] ∧
    lastDotExt (String.toList "png") = none ∧
    ¬∃ e, lastDotExt (String.toList "png") = some e ∧ e ∈ imageExts := by
  refine ⟨rfl, by decide, ?_⟩
  rintro ⟨e, he, _⟩
  rw [show lastDotExt (String.toList "png") = none from by decide] at he
  cases he

/-- C10 as amended: a successful listing keeps exactly the entries of type
`file` whose final dot-separated name segment (the whole name when it has
no dot), lowercased, is an allowed image extension; a non-array body yields
the empty list. -/
theorem listing_image_filter :
    ∀ (l r : List GitHubFile) (f : GitHubFile),
      (getRepoFiles true none = Except.ok []) ∧
      (getRepoFiles true (some l) = Except.ok r →
        (f ∈ r ↔ f ∈ l ∧ f.type = "file" ∧
          (((splitOnDot f.name.toList).getLastD []).map Char.toLower) ∈ imageExts)) := by
  intro l r f
  refine ⟨rfl, ?_⟩
  intro hr
  have hfil : r = l.filter fun f => f.type == "file" && isImageFile f.name := by
    unfold getRepoFiles at hr
    simp only [Bool.not_true, Bool.false_eq_true, if_false] at hr
    injection hr with h
    exact h.symm
  subst hfil
  rw [List.mem_filter]
  unfold isImageFile
  simp

/-- Witness for C10 (amended): the kept record of the mixed listing is a
`file` with an allowed extension. -/
theorem listing_image_filter_witness :
    exCatRecord ∈ exListing ∧ exCatRecord.type = "file" ∧
      (((splitOnDot exCatRecord.name.toList).getLastD []).map Char.toLower) ∈ imageExts :=
  ((listing_image_filter exListing [exCatRecord] exCatRecord).2 rfl).mp (by decide)
